import Mathlib

/-!
# Astroid: message part tree and thread assembly

A shallow embedding of `src/message_thread.cc` (classes `Message` and
`MessageThread`) together with the properties stated for it.

Conventions of the embedding

* `Glib::ustring` is a sequence of Unicode characters: `List Char`.
* `refptr<Chunk>` in `kids` owns a subtree, so `kids` is a list of subtrees.
  `refptr<Chunk>` in `siblings` is a non-owning reference to another node of
  the same tree; it is represented by `ChunkRef`, the scalar fields of the node
  it points to (the traversals below read nothing else through it).
* A lambda that captures an accumulator by reference (`body`, `attachments`,
  `mime_messages`, `messages`) becomes a function from the accumulator before
  the call to the accumulator after it; `for_each` and the `for` loops become
  the matching recursion over the list.
* `throw` becomes `Except.error`; an operation that mutates an object and may
  throw returns the outcome together with the state the object is left in.
-/

namespace Astroid

/-- Model of `Glib::ustring`: a sequence of Unicode characters. -/
abbrev ustring := List Char

/-- The exceptions thrown in `message_thread.cc`, each with its `what` text. -/
inductive Exception where
  | logic_error (what : String)
  | runtime_error (what : String)
  | invalid_argument (what : String)
  | message_error (what : String)
deriving DecidableEq, Repr

/-! ## Part tree (`Chunk`) -/

/-- What a non-owning `refptr<Chunk>` stored in `siblings` gives access to: the
id and the flags of the node it points to. -/
structure ChunkRef where
  id : Int
  viewable : Bool
  attachment : Bool
  preferred : Bool
  mime_message : Bool
deriving DecidableEq, Repr

/-- One node of the part tree. The class is declared in `chunk.hh`; the fields
are those `message_thread.cc` reads: `id`, the four flags, the suggested
file name returned by `get_filename ()` (empty when there is none), the
payload, the alternative group (`siblings`) and the owned children (`kids`). -/
structure Chunk where
  id : Int
  viewable : Bool
  attachment : Bool
  preferred : Bool
  mime_message : Bool
  filename : ustring
  content : ustring
  siblings : List ChunkRef
  kids : List Chunk
deriving Repr

/-- The reference by which other nodes name `c` in their `siblings`. -/
def Chunk.ref (c : Chunk) : ChunkRef :=
  ⟨c.id, c.viewable, c.attachment, c.preferred, c.mime_message⟩

/-- `Chunk::get_filename ()`: the suggested file name of the part. -/
def Chunk.get_filename (c : Chunk) : ustring := c.filename

/-- Lines 204-221 of `app_body`: the value of `use` for the node `c`. -/
def app_body_use (c : Chunk) : Bool :=
  if c.siblings.length ≥ 1 then
    if c.preferred then true
    else if c.siblings.all (fun s => !s.preferred) then true
    else false
  else true

mutual
/-- The lambda `app_body` of `Message::viewable_text` (lines 200-232).
`chunk_text c html` is `c->viewable_text (html)` of `chunk.cc`; `body` is the
captured accumulator. -/
def app_body (chunk_text : Chunk → Bool → ustring) (html fallback_html : Bool) :
    Chunk → ustring → ustring
  | .mk id viewable attachment preferred mime_message filename content siblings kids, body =>
    let c : Chunk :=
      .mk id viewable attachment preferred mime_message filename content siblings kids
    if app_body_use c then
      let body :=
        if c.viewable && (c.preferred || html || fallback_html) then
          body ++ chunk_text c html
        else body
      app_body_kids chunk_text html fallback_html kids body
    else body
/-- The loop `for_each (c->kids.begin (), c->kids.end (), app_body)`. -/
def app_body_kids (chunk_text : Chunk → Bool → ustring) (html fallback_html : Bool) :
    List Chunk → ustring → ustring
  | [], body => body
  | k :: ks, body =>
    app_body_kids chunk_text html fallback_html ks
      (app_body chunk_text html fallback_html k body)
end

mutual
/-- The lambda `app_attachment` of `Message::attachments` (lines 244-253). -/
def app_attachment : Chunk → List Chunk → List Chunk
  | .mk id viewable attachment preferred mime_message filename content siblings kids, attachments =>
    let c : Chunk :=
      .mk id viewable attachment preferred mime_message filename content siblings kids
    let attachments := if c.attachment then attachments ++ [c] else attachments
    app_attachment_kids kids attachments
/-- The loop `for_each (c->kids.begin (), c->kids.end (), app_attachment)`. -/
def app_attachment_kids : List Chunk → List Chunk → List Chunk
  | [], attachments => attachments
  | k :: ks, attachments => app_attachment_kids ks (app_attachment k attachments)
end

mutual
/-- The lambda `app_mm` of `Message::mime_messages` (lines 273-282). -/
def app_mm : Chunk → List Chunk → List Chunk
  | .mk id viewable attachment preferred mime_message filename content siblings kids, mime_messages =>
    let c : Chunk :=
      .mk id viewable attachment preferred mime_message filename content siblings kids
    let mime_messages := if c.mime_message then mime_messages ++ [c] else mime_messages
    app_mm_kids kids mime_messages
/-- The loop `for_each (c->kids.begin (), c->kids.end (), app_mm)`. -/
def app_mm_kids : List Chunk → List Chunk → List Chunk
  | [], mime_messages => mime_messages
  | k :: ks, mime_messages => app_mm_kids ks (app_mm k mime_messages)
end

/-! ## Message -/

/-- The parsed message handed over by GMime: the header accessors used by
`Message::load_message` (a header that is absent is `NULL`, here `none`) and
the part tree that `Chunk`'s constructor builds from the MIME root. -/
structure GMimeMessage where
  message_id : ustring
  sender : Option ustring
  subject : Option ustring
  in_reply_to : Option ustring
  references : Option ustring
  reply_to : Option ustring
  date : Int
  mime_part : Chunk
deriving Repr

/-- The data members of `Message` that `message_thread.cc` assigns. -/
structure Message where
  mid : ustring
  fname : ustring
  in_notmuch : Bool
  has_file : Bool
  level : Int
  tags : List ustring
  sender : ustring
  subject : ustring
  inreplyto : ustring
  references : ustring
  reply_to : ustring
  received_time : Int
  root : Chunk
deriving Repr

/-- `Message::viewable_text (bool html, bool fallback_html)` (lines 188-237). -/
def Message.viewable_text (chunk_text : Chunk → Bool → ustring) (m : Message)
    (html fallback_html : Bool) : Except Exception ustring :=
  if html && fallback_html then
    .error (.logic_error "message: html implies fallback_html")
  else
    .ok (app_body chunk_text html fallback_html m.root [])

/-- `Message::attachments ()` (lines 239-258). -/
def Message.attachments (m : Message) : List Chunk := app_attachment m.root []

/-- `Message::mime_messages ()` (lines 268-287). -/
def Message.mime_messages (m : Message) : List Chunk := app_mm m.root []

/-! ### Strings and the subject pattern -/

/-- `Glib::ustring::uppercase ()`. Glib maps every character to its Unicode
upper case; this file only compares the result with `"RE:"` and `"PATCH"`,
and the characters whose upper case is one of `R E P A T C H` are the ASCII
letters themselves, so those comparisons see the ASCII mapping. -/
def uppercase (s : ustring) : ustring := s.map Char.toUpper

/-- `s.substr (pos, n)`: at most `n` characters starting at `pos`. -/
def substr (s : ustring) (pos n : Nat) : ustring := (s.drop pos).take n

/-- `s.erase (pos, n)`: `s` without the `n` characters starting at `pos`. -/
def erase (s : ustring) (pos n : Nat) : ustring := s.take pos ++ s.drop (pos + n)

/-- The regular-expression items that occur in `"\\[PATCH.*\\]"`: an escaped
or plain literal character, and `.*`. -/
inductive Rx where
  | lit (c : Char)
  | dot_star
deriving DecidableEq, Repr

/-- The loop of `.*`: try the rest of the pattern (`k`) here, or let `.`
consume one character that is not a line break (`nl`) and try again. -/
def star_loop (nl : Char → Bool) (k : ustring → Bool) : ustring → Bool
  | [] => k []
  | x :: xs => k (x :: xs) || (!nl x && star_loop nl k xs)

/-- Does the pattern match at the start of the text? -/
def match_here (nl : Char → Bool) : List Rx → ustring → Bool
  | [], _ => true
  | Rx.lit c :: p, s =>
    match s with
    | [] => false
    | x :: xs => x == c && match_here nl p xs
  | Rx.dot_star :: p, s => star_loop nl (match_here nl p) s

/-- `Glib::Regex::match_simple (pattern, string)`: the pattern matches
somewhere in the string. `nl` tells which characters the engine treats as line
breaks (those `.` does not match). -/
def match_simple (nl : Char → Bool) (p : List Rx) : ustring → Bool
  | [] => match_here nl p []
  | x :: xs => match_here nl p (x :: xs) || match_simple nl p xs

/-- The pattern `"\\[PATCH.*\\]"` of `Message::is_patch`. -/
def patch_pattern : List Rx :=
  [Rx.lit '[', Rx.lit 'P', Rx.lit 'A', Rx.lit 'T', Rx.lit 'C', Rx.lit 'H', Rx.dot_star,
    Rx.lit ']']

/-- The line breaks of GRegex when no newline option is given: any Unicode
newline character. -/
def glib_newline (c : Char) : Bool :=
  c == '\n' || c == '\x0b' || c == '\x0c' || c == '\r' || c == '\u0085' ||
    c == '\u2028' || c == '\u2029'

/-- `Message::is_patch ()` (lines 429-433). -/
def Message.is_patch (nl : Char → Bool) (m : Message) : Bool :=
  (uppercase (substr m.subject 0 3) != "RE:".toList) &&
    match_simple nl patch_pattern m.subject

/-- `Message::get_filename (ustring appendix)` (lines 317-348). `safe_fname` is
`Utils::safe_fname` of `utils/utils.cc`. -/
def Message.get_filename (safe_fname : ustring → ustring) (nl : Char → Bool) (m : Message)
    (appendix : ustring) : ustring :=
  let _f := m.root.get_filename
  let _f :=
    if _f.length = 0 then
      let _f := safe_fname m.subject
      if m.is_patch nl then
        let _f := if uppercase (substr _f 0 5) = "PATCH".toList then erase _f 0 5 else _f
        let _f := if appendix.length ≠ 0 then _f ++ ("-".toList ++ appendix) else _f
        _f ++ ".patch".toList
      else
        let _f := if appendix.length ≠ 0 then _f ++ ("-".toList ++ appendix) else _f
        _f ++ ".eml".toList
    else _f
  safe_fname _f

/-- The names `Message::save_to` tries when the target is a directory (lines
388-395): `get_filename ()` first, then, at each turn of the loop
`while (exists (newto))`, `get_filename (UstringUtils::random_alphanumeric (5))`.
`random n` is the string drawn at turn `n`; the default argument of
`get_filename` is the empty string. -/
def save_to_candidate (safe_fname : ustring → ustring) (nl : Char → Bool) (m : Message)
    (random : Nat → ustring) : Nat → ustring
  | 0 => m.get_filename safe_fname nl []
  | n + 1 => m.get_filename safe_fname nl (random n)

/-! ## MessageThread -/

/-- A message record of the store (`notmuch_message_t`): what
`notmuch_message_get_message_id`, `_get_filename`, `_get_tags` and
`_get_replies` return for it. -/
structure NmMessage where
  message_id : ustring
  filename : ustring
  tags : List ustring
  replies : List NmMessage
deriving Repr

/-- A thread record of the store (`notmuch_thread_t`): its top-level messages
as `notmuch_thread_get_toplevel_messages` enumerates them. -/
structure NmThread where
  toplevel : List NmMessage
deriving Repr

/-- The members of `NotmuchThread` read by `load_messages`. -/
structure NotmuchThread where
  thread_id : ustring
  subject : ustring
deriving Repr

/-- The data members of `MessageThread`. -/
structure MessageThread where
  thread : NotmuchThread
  in_notmuch : Bool
  subject : ustring
  messages : List Message
deriving Repr

/-- `Message::Message (notmuch_message_t *message, int _level)` (lines 48-64)
with `load_message_from_file`, `load_message` and `load_tags` inlined.
`open_file fname` is the message GMime constructs from the file, and `none`
when `g_mime_stream_file_new_for_path` returns `NULL`: then
`load_message_from_file` throws the `message_error` of line 123 and no
`Message` comes into being. -/
def Message.from_notmuch (open_file : ustring → Option GMimeMessage) (message : NmMessage)
    (_level : Int) : Except Exception Message :=
  let mid := message.message_id
  let fname := message.filename
  match open_file fname with
  | none => .error (.message_error (String.mk ("failed to open file: ".toList ++ fname)))
  | some _msg =>
    .ok
      { mid := if mid = [] then _msg.message_id else mid
        fname := fname
        in_notmuch := true
        has_file := true
        level := _level
        tags := message.tags
        sender := _msg.sender.getD []
        subject := _msg.subject.getD []
        inreplyto := _msg.in_reply_to.getD []
        references := _msg.references.getD []
        reply_to := _msg.reply_to.getD []
        received_time := _msg.date
        root := _msg.mime_part }

mutual
/-- The lambda `add_replies` of `load_messages` (lines 477-495): the outcome
and the captured sequence `messages` afterwards. `lvl` is an `int`; it counts
the nesting of the current call, which stays far below the range of `int`, so
it is an integer without wrap-around here. -/
def add_replies (open_file : ustring → Option GMimeMessage) :
    NmMessage → Int → List Message → Except Exception Unit × List Message
  | .mk _ _ _ replies, lvl, messages => add_replies_loop open_file replies lvl messages
/-- The `for` loop over `notmuch_message_get_replies (root)` (lines 483-493).
An exception thrown by `new Message (reply, lvl)` leaves the loop before the
`push_back`; one thrown by the nested `add_replies` leaves it with what that
call had appended. -/
def add_replies_loop (open_file : ustring → Option GMimeMessage) :
    List NmMessage → Int → List Message → Except Exception Unit × List Message
  | [], _, messages => (.ok (), messages)
  | reply :: replies, lvl, messages =>
    match Message.from_notmuch open_file reply lvl with
    | .error e => (.error e, messages)
    | .ok m =>
      match add_replies open_file reply (lvl + 1) (messages ++ [m]) with
      | (.error e, messages) => (.error e, messages)
      | (.ok _, messages) => add_replies_loop open_file replies lvl messages
end

/-- The `for` loop over the top-level messages (lines 497-507), with the same
treatment of exceptions. -/
def toplevel_loop (open_file : ustring → Option GMimeMessage) :
    List NmMessage → Int → List Message → Except Exception Unit × List Message
  | [], _, messages => (.ok (), messages)
  | message :: qmessages, level, messages =>
    match Message.from_notmuch open_file message level with
    | .error e => (.error e, messages)
    | .ok m =>
      match add_replies open_file message (level + 1) (messages ++ [m]) with
      | (.error e, messages) => (.error e, messages)
      | (.ok _, messages) => toplevel_loop open_file qmessages level messages

/-- `MessageThread::load_messages (Db *db)` (lines 458-509): the outcome and
the state of the thread afterwards. `nm_thread` is the handle `db->on_thread`
passes to the callback; an exception that leaves the callback leaves
`load_messages`, after `subject` was assigned and with the messages appended
so far. -/
def MessageThread.load_messages (open_file : ustring → Option GMimeMessage)
    (nm_thread : NmThread) (mt : MessageThread) : Except Exception Unit × MessageThread :=
  let mt := { mt with subject := mt.thread.subject }
  let level : Int := 0
  match toplevel_loop open_file nm_thread.toplevel level mt.messages with
  | (outcome, messages) => (outcome, { mt with messages := messages })

/-- `MessageThread::add_message (refptr<Chunk> c)` (lines 515-526): the outcome
and the state of the thread afterwards. `get_mime_message c` is
`c->get_mime_message ()` of `chunk.cc`. -/
def MessageThread.add_message (get_mime_message : Chunk → Message) (mt : MessageThread)
    (c : Chunk) : Except Exception Unit × MessageThread :=
  if !c.mime_message then
    (.error (.runtime_error "mt: can only add message chunks that are GMimeMessages"), mt)
  else
    let mt := { mt with messages := mt.messages ++ [get_mime_message c] }
    let mt :=
      if mt.subject = [] then
        match mt.messages.getLast? with
        | some last => { mt with subject := last.subject }
        | none => mt
      else mt
    (.ok (), mt)

/-! ## Reference vocabulary for the part tree

Positions identify nodes: a position is the list of child indices that leads
from the root to the node, the root itself being `[]`. -/

/-- The node found at a position, if the position exists in the tree. -/
def Chunk.node_at : Chunk → List Nat → Option Chunk
  | c, [] => some c
  | c, i :: p =>
    match c.kids[i]? with
    | some k => k.node_at p
    | none => none

mutual
/-- All positions of a tree in pre-order (document order): the node first,
then the positions below each child, children from first to last. -/
def positions : Chunk → List (List Nat)
  | .mk _ _ _ _ _ _ _ _ kids => [] :: positions_kids 0 kids
/-- Positions below the children `ks`, the first of which has index `i`. -/
def positions_kids : Nat → List Chunk → List (List Nat)
  | _, [] => []
  | i, k :: ks => (positions k).map (fun p => i :: p) ++ positions_kids (i + 1) ks
end

/-- The sibling rule: the node has no siblings, or it is preferred, or none of
its siblings is preferred. -/
def sibling_rule (n : Chunk) : Bool :=
  n.siblings.isEmpty || n.preferred || n.siblings.all (fun s => !s.preferred)

/-- The text rule: the node is viewable and (it is preferred or `html` or
`fallback_html` was asked for). -/
def text_rule (html fallback_html : Bool) (n : Chunk) : Bool :=
  n.viewable && (n.preferred || html || fallback_html)

/-- The node at `p` and every ancestor of it satisfy the sibling rule. -/
def included (root : Chunk) (p : List Nat) : Bool :=
  p.inits.all fun q =>
    match root.node_at q with
    | some n => sibling_rule n
    | none => false

/-- The node at `p` is included and satisfies the text rule. -/
def rendered (html fallback_html : Bool) (root : Chunk) (p : List Nat) : Bool :=
  included root p &&
    match root.node_at p with
    | some n => text_rule html fallback_html n
    | none => false

/-- The rendered text of the node at `p`. -/
def text_at (chunk_text : Chunk → Bool → ustring) (html : Bool) (root : Chunk)
    (p : List Nat) : ustring :=
  match root.node_at p with
  | some n => chunk_text n html
  | none => []

/-- The positions whose node contributes text, in pre-order. -/
def rendered_positions (html fallback_html : Bool) (root : Chunk) : List (List Nat) :=
  (positions root).filter (rendered html fallback_html root)

/-- Reference definition of the body: the texts of the rendered positions,
concatenated in pre-order. -/
def viewable_text_reference (chunk_text : Chunk → Bool → ustring)
    (html fallback_html : Bool) (root : Chunk) : ustring :=
  ((rendered_positions html fallback_html root).map (text_at chunk_text html root)).flatten

/-- The children `kids` form one alternative group: the `siblings` of each are
the other members, in order. -/
def alt_group (kids : List Chunk) : Prop :=
  ∀ i < kids.length,
    kids[i]?.map Chunk.siblings = some ((kids.eraseIdx i).map Chunk.ref)

instance (kids : List Chunk) : Decidable (alt_group kids) :=
  inferInstanceAs (Decidable (∀ i < kids.length,
    kids[i]?.map Chunk.siblings = some ((kids.eraseIdx i).map Chunk.ref)))

/-- The flag `flag` of the node at `p` (false where there is no node). -/
def flag_at (flag : Chunk → Bool) (root : Chunk) (p : List Nat) : Bool :=
  match root.node_at p with
  | some n => flag n
  | none => false

/-- The nodes that carry `flag`, each taken at its position, in pre-order. -/
def nodes_with (flag : Chunk → Bool) (root : Chunk) : List Chunk :=
  ((positions root).filter (flag_at flag root)).filterMap root.node_at

mutual
/-- The tree with `siblings`, `preferred` and `viewable` blanked at every
node; all other fields and the shape are kept. -/
def erase_render : Chunk → Chunk
  | .mk id _ attachment _ mime_message filename content _ kids =>
    .mk id false attachment false mime_message filename content [] (erase_render_kids kids)
/-- The same, for a list of children. -/
def erase_render_kids : List Chunk → List Chunk
  | [] => []
  | k :: ks => erase_render k :: erase_render_kids ks
end

mutual
/-- The common shape of `app_attachment` and `app_mm`: append the node when it
carries `flag`, then visit the children in order. -/
def collect (flag : Chunk → Bool) : Chunk → List Chunk → List Chunk
  | .mk id viewable attachment preferred mime_message filename content siblings kids, acc =>
    let c : Chunk :=
      .mk id viewable attachment preferred mime_message filename content siblings kids
    collect_kids flag kids (if flag c then acc ++ [c] else acc)
/-- The loop over the children. -/
def collect_kids (flag : Chunk → Bool) : List Chunk → List Chunk → List Chunk
  | [], acc => acc
  | k :: ks, acc => collect_kids flag ks (collect flag k acc)
end

/-! ## Reference vocabulary for the thread walk -/

mutual
/-- Pre-order flattening of one message and its replies, every message paired
with its depth: the message itself at depth `d`, its replies at `d + 1`. -/
def thread_preorder : Nat → NmMessage → List (NmMessage × Nat)
  | d, .mk message_id filename tags replies =>
    (.mk message_id filename tags replies, d) :: forest_preorder (d + 1) replies
/-- Pre-order flattening of a list of messages that all have depth `d`. -/
def forest_preorder : Nat → List NmMessage → List (NmMessage × Nat)
  | _, [] => []
  | d, m :: ms => thread_preorder d m ++ forest_preorder d ms
end

/-- The file of every message of the forest can be opened. -/
def all_files_open (open_file : ustring → Option GMimeMessage) (forest : List NmMessage) :
    Prop :=
  ∀ e ∈ forest_preorder 0 forest, (open_file e.1.filename).isSome = true

/-! ## Reference vocabulary for subjects and file names -/

/-- The text without a leading `token`, when it starts with exactly these
characters; unchanged otherwise. -/
def without_leading (token s : ustring) : ustring :=
  if token.isPrefixOf s then s.drop token.length else s

/-- The text without its first five characters when these are `PATCH` in any
mix of upper and lower case; unchanged otherwise. -/
def without_leading_patch_any_case (s : ustring) : ustring :=
  if uppercase (s.take 5) = "PATCH".toList then s.drop 5 else s

/-- The name derived from the subject: `sanitize (stem ++ sfx ++ ext)`, with
`strip` the way a leading `PATCH` is removed from the sanitized subject of a
patch. -/
def filename_from_subject (strip : ustring → ustring) (sanitize : ustring → ustring)
    (nl : Char → Bool) (m : Message) (suffix : ustring) : ustring :=
  let ext := if m.is_patch nl then ".patch".toList else ".eml".toList
  let sfx := if suffix = [] then [] else "-".toList ++ suffix
  let stem := if m.is_patch nl then strip (sanitize m.subject) else sanitize m.subject
  sanitize (stem ++ sfx ++ ext)

/-! ## Sample data -/

/-- Rendering used in the examples: the payload as it is. -/
def sample_text (c : Chunk) (_html : Bool) : ustring := c.content

/-- Sanitizer used in the examples: every character other than a letter, a
digit, `.`, `-` and `_` becomes `_`. -/
def sample_safe_fname (s : ustring) : ustring :=
  s.map fun c => if c.isAlphanum || c == '.' || c == '-' || c == '_' then c else '_'

/-- A message around a part tree, with the given subject. -/
def sample_message (subject : String) (root : Chunk) : Message :=
  { mid := "id@example".toList, fname := [], in_notmuch := false, has_file := false,
    level := 0, tags := [], sender := [], subject := subject.toList, inreplyto := [],
    references := [], reply_to := [], received_time := 0, root := root }

/-- A `multipart/alternative` with a plain and an HTML part, both viewable,
neither preferred. -/
def no_preferred_tree : Chunk :=
  { id := 0, viewable := false, attachment := false, preferred := false,
    mime_message := false, filename := [], content := [], siblings := [],
    kids :=
      [{ id := 1, viewable := true, attachment := false, preferred := false,
         mime_message := false, filename := [], content := "plain".toList,
         siblings := [⟨2, true, false, false, false⟩], kids := [] },
       { id := 2, viewable := true, attachment := false, preferred := false,
         mime_message := false, filename := [], content := "html".toList,
         siblings := [⟨1, true, false, false, false⟩], kids := [] }] }

/-- A `multipart/alternative` whose second member is preferred. The first
member has a viewable, preferred part below it; the second has an attached
message below it. -/
def one_preferred_tree : Chunk :=
  { id := 0, viewable := false, attachment := false, preferred := false,
    mime_message := false, filename := [], content := [], siblings := [],
    kids :=
      [{ id := 1, viewable := true, attachment := false, preferred := false,
         mime_message := false, filename := [], content := "plain".toList,
         siblings := [⟨3, true, false, true, false⟩],
         kids :=
           [{ id := 2, viewable := true, attachment := true, preferred := true,
              mime_message := false, filename := [], content := "nested".toList,
              siblings := [], kids := [] }] },
       { id := 3, viewable := true, attachment := false, preferred := true,
         mime_message := false, filename := [], content := "html".toList,
         siblings := [⟨1, true, false, false, false⟩],
         kids :=
           [{ id := 4, viewable := false, attachment := true, preferred := false,
              mime_message := true, filename := [], content := "inner".toList,
              siblings := [], kids := [] }] }] }

/-- A store record with the given id and replies. -/
def sample_record (id : String) (replies : List NmMessage) : NmMessage :=
  { message_id := id.toList, filename := id.toList, tags := [], replies := replies }

/-- The reply graph: root A with replies B and C; B has reply D. -/
def sample_thread : NmThread :=
  { toplevel :=
      [sample_record "A"
        [sample_record "B" [sample_record "D" []], sample_record "C" []]] }

/-- A single part without a suggested file name. -/
def unnamed_part : Chunk :=
  { id := 0, viewable := true, attachment := false, preferred := true,
    mime_message := false, filename := [], content := "text".toList, siblings := [],
    kids := [] }

/-- A single part whose suggested file name is `notes.txt`. -/
def named_part : Chunk :=
  { id := 0, viewable := true, attachment := false, preferred := true,
    mime_message := false, filename := "notes.txt".toList, content := "text".toList,
    siblings := [], kids := [] }

/-- A file system for the examples: every file opens and holds a message
with one part. -/
def sample_open (_fname : ustring) : Option GMimeMessage :=
  some
    { message_id := [], sender := none, subject := none, in_reply_to := none,
      references := none, reply_to := none, date := 0, mime_part := unnamed_part }

/-- The same file system after the file of message B was removed. -/
def sample_open_without_B (fname : ustring) : Option GMimeMessage :=
  if fname = "B".toList then none else sample_open fname

/-- An empty thread object. -/
def sample_message_thread : MessageThread :=
  { thread := { thread_id := "t".toList, subject := "subject".toList },
    in_notmuch := true, subject := [], messages := [] }

end Astroid

namespace Astroid

/-! ## Lemmas on the part tree -/

theorem app_body_use_eq (c : Chunk) : app_body_use c = sibling_rule c := by
  unfold app_body_use sibling_rule
  cases hs : c.siblings with
  | nil => simp
  | cons s ss =>
    cases hp : c.preferred
    · cases hall : (s :: ss).all (fun s => !s.preferred) <;> simp [hall]
    · simp

mutual
theorem app_body_append (t : Chunk → Bool → ustring) (html fb : Bool) :
    ∀ (c : Chunk) (body : ustring),
      app_body t html fb c body = body ++ app_body t html fb c []
  | .mk id v a p mm fn ct sib kids, body => by
    simp only [app_body]
    split
    · split
      · rw [app_body_kids_append t html fb kids,
          app_body_kids_append t html fb kids ([] ++ _)]
        simp
      · exact app_body_kids_append t html fb kids body
    · simp
theorem app_body_kids_append (t : Chunk → Bool → ustring) (html fb : Bool) :
    ∀ (ks : List Chunk) (body : ustring),
      app_body_kids t html fb ks body = body ++ app_body_kids t html fb ks []
  | [], body => by simp [app_body_kids]
  | k :: ks, body => by
    simp only [app_body_kids]
    rw [app_body_kids_append t html fb ks, app_body_append t html fb k body,
      app_body_kids_append t html fb ks (app_body t html fb k [])]
    simp
end

theorem node_at_cons (c : Chunk) (i : Nat) (p : List Nat) :
    c.node_at (i :: p) =
      match c.kids[i]? with
      | some k => k.node_at p
      | none => none := by
  cases c; rfl

theorem included_nil (c : Chunk) : included c [] = sibling_rule c := by
  simp [included, Chunk.node_at]

theorem included_cons (c : Chunk) (i : Nat) (p : List Nat) :
    included c (i :: p) =
      (sibling_rule c &&
        match c.kids[i]? with
        | some k => included k p
        | none => false) := by
  unfold included
  rw [List.inits_cons, List.all_cons, List.all_map]
  cases hk : c.kids[i]? with
  | none =>
    cases p <;> simp [Chunk.node_at, node_at_cons, hk, Function.comp_def]
  | some k =>
    simp [Chunk.node_at, node_at_cons, hk, Function.comp_def]

theorem rendered_nil (html fb : Bool) (c : Chunk) :
    rendered html fb c [] = (sibling_rule c && text_rule html fb c) := by
  simp [rendered, included_nil, Chunk.node_at]

theorem rendered_cons (html fb : Bool) (c k : Chunk) (i : Nat) (p : List Nat)
    (hk : c.kids[i]? = some k) :
    rendered html fb c (i :: p) = (sibling_rule c && rendered html fb k p) := by
  simp [rendered, included_cons, node_at_cons, hk, Bool.and_assoc]

theorem text_at_cons (t : Chunk → Bool → ustring) (html : Bool) (c k : Chunk) (i : Nat)
    (p : List Nat) (hk : c.kids[i]? = some k) :
    text_at t html c (i :: p) = text_at t html k p := by
  simp [text_at, node_at_cons, hk]

theorem reference_kids (t : Chunk → Bool → ustring) (html fb : Bool) (c : Chunk) :
    ∀ (ks : List Chunk) (i : Nat), (∀ j, ks[j]? = c.kids[i + j]?) →
      (((positions_kids i ks).filter (rendered html fb c)).map (text_at t html c)).flatten =
        if sibling_rule c then (ks.map (viewable_text_reference t html fb)).flatten else []
  | [], _, _ => by simp [positions_kids]
  | k :: ks, i, h => by
    have hk : c.kids[i]? = some k := by simpa using (h 0).symm
    have htail : ∀ j, ks[j]? = c.kids[(i + 1) + j]? := by
      intro j
      have := h (j + 1)
      simpa [Nat.add_assoc, Nat.add_comm 1 j] using this
    have ih := reference_kids t html fb c ks (i + 1) htail
    rw [positions_kids, List.filter_append, List.map_append, List.flatten_append, ih,
      List.filter_map, List.map_map]
    have h1 : (rendered html fb c ∘ fun p => i :: p) =
        fun p => (sibling_rule c && rendered html fb k p) := by
      funext p; exact rendered_cons html fb c k i p hk
    have h2 : (text_at t html c ∘ fun p => i :: p) = text_at t html k := by
      funext p; exact text_at_cons t html c k i p hk
    rw [h1, h2]
    cases hs : sibling_rule c
    · simp
    · simp [viewable_text_reference, rendered_positions]

theorem reference_unfold (t : Chunk → Bool → ustring) (html fb : Bool) (c : Chunk) :
    viewable_text_reference t html fb c =
      if sibling_rule c then
        (if text_rule html fb c then t c html else []) ++
          (c.kids.map (viewable_text_reference t html fb)).flatten
      else [] := by
  have hk := reference_kids t html fb c c.kids 0 (by intro j; simp)
  cases c with
  | mk id v a p mm fn ct sib kids =>
    simp only [viewable_text_reference, rendered_positions, positions] at hk ⊢
    rw [List.filter_cons, rendered_nil]
    cases hs : sibling_rule (Chunk.mk id v a p mm fn ct sib kids)
    · rw [hs] at hk
      simpa using hk
    · rw [hs] at hk
      cases ht : text_rule html fb (Chunk.mk id v a p mm fn ct sib kids)
      · simpa using hk
      · simp [text_at, Chunk.node_at]
        simpa using hk

mutual
theorem app_body_reference (t : Chunk → Bool → ustring) (html fb : Bool) :
    ∀ c : Chunk, app_body t html fb c [] = viewable_text_reference t html fb c
  | .mk id v a p mm fn ct sib kids => by
    rw [reference_unfold, ← app_body_use_eq]
    simp only [app_body, text_rule]
    split
    · rw [app_body_kids_append, app_body_kids_reference t html fb kids]
      split <;> simp
    · rfl
theorem app_body_kids_reference (t : Chunk → Bool → ustring) (html fb : Bool) :
    ∀ ks : List Chunk,
      app_body_kids t html fb ks [] = (ks.map (viewable_text_reference t html fb)).flatten
  | [] => by simp [app_body_kids]
  | k :: ks => by
    simp only [app_body_kids]
    rw [app_body_kids_append, app_body_reference t html fb k,
      app_body_kids_reference t html fb ks]
    simp
end

theorem node_at_append (c : Chunk) (p q : List Nat) :
    c.node_at (p ++ q) = (c.node_at p).bind fun n => n.node_at q := by
  induction p generalizing c with
  | nil => simp [Chunk.node_at]
  | cons i p ih =>
    rw [List.cons_append, node_at_cons, node_at_cons]
    cases c.kids[i]? with
    | none => rfl
    | some k => exact ih k

theorem node_at_snoc (c g k : Chunk) (p : List Nat) (i : Nat)
    (hg : c.node_at p = some g) (hk : g.kids[i]? = some k) :
    c.node_at (p ++ [i]) = some k := by
  rw [node_at_append, hg]
  simp [node_at_cons, hk, Chunk.node_at]

theorem included_snoc (c g k : Chunk) (p : List Nat) (i : Nat)
    (hg : c.node_at p = some g) (hk : g.kids[i]? = some k) :
    included c (p ++ [i]) = (included c p && sibling_rule k) := by
  induction p generalizing c with
  | nil =>
    simp only [Chunk.node_at, Option.some.injEq] at hg
    subst hg
    simp [included_cons, included_nil, hk]
  | cons j p ih =>
    rw [node_at_cons] at hg
    rw [List.cons_append, included_cons, included_cons]
    cases hj : c.kids[j]? with
    | none => simp [hj] at hg
    | some k2 =>
      rw [hj] at hg
      simp only at hg ⊢
      rw [ih k2 hg, Bool.and_assoc]

theorem included_of_initial (c : Chunk) (p q : List Nat) (h : included c q = true)
    (hpq : p <+: q) : ∃ n, c.node_at p = some n ∧ sibling_rule n = true := by
  unfold included at h
  rw [List.all_eq_true] at h
  have := h p ((List.mem_inits p q).2 hpq)
  cases hn : c.node_at p with
  | none => simp [hn] at this
  | some n => exact ⟨n, rfl, by simpa [hn] using this⟩

theorem app_body_of_excluded (t : Chunk → Bool → ustring) (html fb : Bool) (c : Chunk)
    (h : sibling_rule c = false) (body : ustring) : app_body t html fb c body = body := by
  rw [← app_body_use_eq] at h
  cases c
  simp only [app_body, h]
  simp

theorem viewable_text_ok (t : Chunk → Bool → ustring) (m : Message) (html fb : Bool)
    (h : (html && fb) = false) :
    m.viewable_text t html fb = .ok (viewable_text_reference t html fb m.root) := by
  unfold Message.viewable_text
  rw [h, app_body_reference]
  rfl

/-- A member that is not preferred, in a group that has a preferred member,
fails the sibling rule. -/
theorem member_excluded (kids : List Chunk) (hgroup : alt_group kids) (x : Chunk)
    (hx : x ∈ kids) (hxp : x.preferred = true) (i : Nat) (member : Chunk)
    (hm : kids[i]? = some member) (hmp : member.preferred = false) :
    sibling_rule member = false := by
  obtain ⟨hi, hmem⟩ := List.getElem?_eq_some.1 hm
  have hsib := hgroup i hi
  rw [hm] at hsib
  simp only [Option.map_some', Option.some.injEq] at hsib
  obtain ⟨j, hj, hjx⟩ := List.mem_iff_getElem.1 hx
  have hji : j ≠ i := by
    intro h
    subst h
    rw [hjx] at hmem
    rw [hmem, hmp] at hxp
    exact Bool.noConfusion hxp
  have hxe : x ∈ kids.eraseIdx i := List.mem_eraseIdx_iff_getElem.2 ⟨j, hj, hji, hjx⟩
  have hxr : x.ref ∈ member.siblings := by
    rw [hsib]
    exact List.mem_map_of_mem _ hxe
  unfold sibling_rule
  have h1 : member.siblings.isEmpty = false := by
    cases hs : member.siblings with
    | nil => rw [hs] at hxr; cases hxr
    | cons a l => rfl
  have h2 : (member.siblings.all fun s => !s.preferred) = false := by
    rw [List.all_eq_false]
    exact ⟨x.ref, hxr, by simp [Chunk.ref, hxp]⟩
  rw [h1, hmp, h2]
  rfl

/-- A member of a group without any preferred member passes the sibling rule. -/
theorem member_included (kids : List Chunk) (hgroup : alt_group kids)
    (hnone : ∀ k ∈ kids, k.preferred = false) (i : Nat) (member : Chunk)
    (hm : kids[i]? = some member) : sibling_rule member = true := by
  obtain ⟨hi, _⟩ := List.getElem?_eq_some.1 hm
  have hsib := hgroup i hi
  rw [hm] at hsib
  simp only [Option.map_some', Option.some.injEq] at hsib
  unfold sibling_rule
  have : (member.siblings.all fun s => !s.preferred) = true := by
    rw [List.all_eq_true, hsib]
    intro r hr
    obtain ⟨k, hk, rfl⟩ := List.mem_map.1 hr
    simp [Chunk.ref, hnone k (List.mem_of_mem_eraseIdx hk)]
  rw [this]
  simp

mutual
theorem mem_positions : ∀ (c : Chunk) (p : List Nat),
    p ∈ positions c ↔ (c.node_at p).isSome = true
  | .mk id v a pr mm fn ct sib kids, p => by
    cases p with
    | nil => simp [positions, Chunk.node_at]
    | cons j q =>
      rw [positions, List.mem_cons, mem_positions_kids kids 0 (j :: q), node_at_cons]
      constructor
      · rintro (h | ⟨j2, q2, k, hp, hk, hq⟩)
        · cases h
        · simp only [Nat.zero_add, List.cons.injEq] at hp
          obtain ⟨rfl, rfl⟩ := hp
          simpa [hk] using hq
      · intro h
        right
        cases hk : kids[j]? with
        | none => simp [hk] at h
        | some k =>
          refine ⟨j, q, k, by simp, hk, ?_⟩
          simpa [hk] using h
theorem mem_positions_kids : ∀ (ks : List Chunk) (i : Nat) (p : List Nat),
    p ∈ positions_kids i ks ↔
      ∃ j q k, p = (i + j) :: q ∧ ks[j]? = some k ∧ (k.node_at q).isSome = true
  | [], i, p => by simp [positions_kids]
  | k :: ks, i, p => by
    rw [positions_kids, List.mem_append, List.mem_map, mem_positions_kids ks (i + 1) p]
    constructor
    · rintro (⟨q, hq, rfl⟩ | ⟨j, q, k2, rfl, hk, hq⟩)
      · exact ⟨0, q, k, by simp, by simp, (mem_positions k q).1 hq⟩
      · exact ⟨j + 1, q, k2, by simp [Nat.add_assoc, Nat.add_comm 1 j], by simpa using hk, hq⟩
    · rintro ⟨j, q, k2, rfl, hk, hq⟩
      cases j with
      | zero =>
        left
        simp only [List.getElem?_cons_zero, Option.some.injEq] at hk
        subst hk
        exact ⟨q, (mem_positions k q).2 hq, by simp⟩
      | succ j =>
        right
        exact ⟨j, q, k2, by simp [Nat.add_assoc, Nat.add_comm 1 j], by simpa using hk, hq⟩
end

mutual
theorem positions_nodup : ∀ c : Chunk, (positions c).Nodup
  | .mk id v a pr mm fn ct sib kids => by
    rw [positions, List.nodup_cons]
    refine ⟨?_, positions_kids_nodup kids 0⟩
    intro h
    obtain ⟨j, q, k, hp, _, _⟩ := (mem_positions_kids kids 0 []).1 h
    cases hp
theorem positions_kids_nodup : ∀ (ks : List Chunk) (i : Nat), (positions_kids i ks).Nodup
  | [], i => by simp [positions_kids]
  | k :: ks, i => by
    rw [positions_kids, List.nodup_append]
    refine ⟨(positions_nodup k).map (List.cons_injective), positions_kids_nodup ks (i + 1), ?_⟩
    intro p h1 h2
    obtain ⟨q, _, rfl⟩ := List.mem_map.1 h1
    obtain ⟨j, q2, k2, hp, _, _⟩ := (mem_positions_kids ks (i + 1) (i :: q)).1 h2
    simp only [List.cons.injEq] at hp
    omega
end

theorem app_body_kids_excluded (t : Chunk → Bool → ustring) (html fb : Bool) :
    ∀ (ks : List Chunk), (∀ k ∈ ks, sibling_rule k = false) → ∀ body : ustring,
      app_body_kids t html fb ks body = body
  | [], _, body => by simp [app_body_kids]
  | k :: ks, h, body => by
    rw [app_body_kids, app_body_of_excluded t html fb k (h k (List.mem_cons_self _ _)),
      app_body_kids_excluded t html fb ks (fun k2 hk2 => h k2 (List.mem_cons_of_mem _ hk2))]

/-- Visiting the members of a group of which only `x` passes the sibling rule
has the effect of visiting `x` alone. -/
theorem app_body_kids_single (t : Chunk → Bool → ustring) (html fb : Bool) (x : Chunk)
    (hx : x.preferred = true) :
    ∀ (ks : List Chunk), x ∈ ks → (ks.filter fun k => k.preferred).length = 1 →
      (∀ k ∈ ks, k.preferred = false → sibling_rule k = false) → ∀ body : ustring,
      app_body_kids t html fb ks body = app_body t html fb x body
  | [], hmem, _, _, _ => by cases hmem
  | k :: ks, hmem, hone, hex, body => by
    rw [app_body_kids]
    cases hk : k.preferred with
    | false =>
      have hxk : x ∈ ks := by
        rcases List.mem_cons.1 hmem with h | h
        · subst h; rw [hx] at hk; exact Bool.noConfusion hk
        · exact h
      rw [app_body_of_excluded t html fb k (hex k (List.mem_cons_self _ _) hk)]
      refine app_body_kids_single t html fb x hx ks hxk ?_ ?_ body
      · simpa [List.filter_cons, hk] using hone
      · exact fun k2 hk2 => hex k2 (List.mem_cons_of_mem _ hk2)
    | true =>
      have hnone : ∀ k2 ∈ ks, k2.preferred = false := by
        have : (ks.filter fun k => k.preferred) = [] := by
          have h := hone
          simp only [List.filter_cons, hk, if_true, List.length_cons, Nat.add_eq_right] at h
          exact List.length_eq_zero.1 h
        intro k2 hk2
        cases h2 : k2.preferred with
        | false => rfl
        | true =>
          have : k2 ∈ ks.filter fun k => k.preferred := List.mem_filter.2 ⟨hk2, h2⟩
          simp_all
      have hxk : x = k := by
        rcases List.mem_cons.1 hmem with h | h
        · exact h
        · rw [hnone x h] at hx; exact Bool.noConfusion hx
      subst hxk
      exact app_body_kids_excluded t html fb ks
        (fun k2 hk2 => hex k2 (List.mem_cons_of_mem _ hk2) (hnone k2 hk2)) _

/-! ## Properties of `Message::viewable_text` -/

/-- C7: `viewable_text (html = true, fallback_html = true)` fails with the
`logic_error` of line 195 for every message and every rendering of the parts,
so no part is looked at and no text is returned; for the three other flag
combinations the flag check passes and a text is returned. -/
theorem viewable_text_rejects_both_flags (chunk_text : Chunk → Bool → ustring) (m : Message) :
    m.viewable_text chunk_text true true =
        .error (.logic_error "message: html implies fallback_html") ∧
      (∃ body, m.viewable_text chunk_text false false = .ok body) ∧
      (∃ body, m.viewable_text chunk_text true false = .ok body) ∧
      (∃ body, m.viewable_text chunk_text false true = .ok body) :=
  ⟨rfl, ⟨_, rfl⟩, ⟨_, rfl⟩, ⟨_, rfl⟩⟩

/-- C9: for every part tree and every permitted flag pair (not both true),
`viewable_text` returns the reference text: the rendered texts, concatenated in
pre-order, of exactly the positions whose node and all of whose ancestors pass
the sibling rule and whose node passes the text rule. -/
theorem viewable_text_eq_reference (chunk_text : Chunk → Bool → ustring) (m : Message)
    (html fallback_html : Bool) (hflags : ¬ (html = true ∧ fallback_html = true)) :
    m.viewable_text chunk_text html fallback_html =
      .ok (((positions m.root).filter fun p =>
              (p.inits.all fun q =>
                match m.root.node_at q with
                | some n =>
                  n.siblings.isEmpty || n.preferred || n.siblings.all (fun s => !s.preferred)
                | none => false) &&
              match m.root.node_at p with
              | some n => n.viewable && (n.preferred || html || fallback_html)
              | none => false).map fun p =>
            match m.root.node_at p with
            | some n => chunk_text n html
            | none => []).flatten := by
  have h : (html && fallback_html) = false := by
    cases html <;> cases fallback_html <;> simp_all
  exact viewable_text_ok chunk_text m html fallback_html h

/-- Witness for C9 on the tree with one preferred alternative, `html` set. -/
theorem viewable_text_eq_reference_witness :
    ¬ (true = true ∧ false = true) ∧
      (sample_message "s" one_preferred_tree).viewable_text sample_text true false =
        .ok (((positions (sample_message "s" one_preferred_tree).root).filter fun p =>
              (p.inits.all fun q =>
                match (sample_message "s" one_preferred_tree).root.node_at q with
                | some n =>
                  n.siblings.isEmpty || n.preferred || n.siblings.all (fun s => !s.preferred)
                | none => false) &&
              match (sample_message "s" one_preferred_tree).root.node_at p with
              | some n => n.viewable && (n.preferred || true || false)
              | none => false).map fun p =>
            match (sample_message "s" one_preferred_tree).root.node_at p with
            | some n => sample_text n true
            | none => []).flatten :=
  ⟨by decide,
    viewable_text_eq_reference sample_text (sample_message "s" one_preferred_tree) true false
      (by decide)⟩

/-- C1: in every part tree, for every alternative group (the children of the
node `g` at position `p`, each with the other members as `siblings`) in which
exactly one member is preferred, `viewable_text (false, false)` is the
concatenation of the texts at the rendered positions, and for every member
that is not preferred: visiting it leaves the body as it was, and no rendered
position is the member or lies below it. The visit of the whole group has the
effect of the visit of the preferred member alone, wherever it stands in
`kids`. -/
theorem viewable_text_one_preferred (chunk_text : Chunk → Bool → ustring) (m : Message)
    (p : List Nat) (g : Chunk) (hg : m.root.node_at p = some g) (hgroup : alt_group g.kids)
    (hone : (g.kids.filter fun k => k.preferred).length = 1) :
    m.viewable_text chunk_text false false =
        .ok ((rendered_positions false false m.root).map
          (text_at chunk_text false m.root)).flatten ∧
      (∀ (i : Nat) (member : Chunk), g.kids[i]? = some member → member.preferred = false →
        (∀ body, app_body chunk_text false false member body = body) ∧
          ∀ q ∈ rendered_positions false false m.root, ¬ (p ++ [i]) <+: q) ∧
      ∀ x ∈ g.kids, x.preferred = true →
        ∀ body, app_body_kids chunk_text false false g.kids body =
          app_body chunk_text false false x body := by
  obtain ⟨x, hx⟩ : ∃ x, x ∈ g.kids.filter fun k => k.preferred := by
    cases hf : g.kids.filter fun k => k.preferred with
    | nil => rw [hf] at hone; cases hone
    | cons a l => exact ⟨a, List.mem_cons_self _ _⟩
  obtain ⟨hxk, hxp⟩ := List.mem_filter.1 hx
  have hex : ∀ (i : Nat) (member : Chunk), g.kids[i]? = some member →
      member.preferred = false → sibling_rule member = false :=
    fun i member hm hmp => member_excluded g.kids hgroup x hxk hxp i member hm hmp
  refine ⟨viewable_text_ok chunk_text m false false rfl, ?_, ?_⟩
  · intro i member hm hmp
    refine ⟨app_body_of_excluded chunk_text false false member (hex i member hm hmp), ?_⟩
    intro q hq hpre
    have hinc : included m.root q = true := by
      have := (List.mem_filter.1 hq).2
      unfold rendered at this
      exact (Bool.and_eq_true_iff.1 this).1
    obtain ⟨n, hn, hrule⟩ := included_of_initial m.root (p ++ [i]) q hinc hpre
    rw [node_at_snoc m.root g member p i hg hm] at hn
    cases hn
    rw [hex i member hm hmp] at hrule
    exact Bool.noConfusion hrule
  · intro y hy hyp body
    refine app_body_kids_single chunk_text false false y hyp g.kids hy hone ?_ body
    intro k hk hkp
    obtain ⟨i, hi⟩ := List.mem_iff_getElem?.1 hk
    exact hex i k hi hkp

/-- Witness for C1: the group below the root of `one_preferred_tree`. -/
theorem viewable_text_one_preferred_witness :
    ((sample_message "s" one_preferred_tree).root.node_at [] = some one_preferred_tree ∧
        alt_group one_preferred_tree.kids ∧
        (one_preferred_tree.kids.filter fun k => k.preferred).length = 1) ∧
      ((sample_message "s" one_preferred_tree).viewable_text sample_text false false =
          .ok ((rendered_positions false false (sample_message "s" one_preferred_tree).root).map
            (text_at sample_text false (sample_message "s" one_preferred_tree).root)).flatten ∧
        (∀ (i : Nat) (member : Chunk), one_preferred_tree.kids[i]? = some member →
          member.preferred = false →
          (∀ body, app_body sample_text false false member body = body) ∧
            ∀ q ∈ rendered_positions false false (sample_message "s" one_preferred_tree).root,
              ¬ ([] ++ [i]) <+: q) ∧
        ∀ x ∈ one_preferred_tree.kids, x.preferred = true →
          ∀ body, app_body_kids sample_text false false one_preferred_tree.kids body =
            app_body sample_text false false x body) :=
  ⟨⟨rfl, by decide, by decide⟩,
    viewable_text_one_preferred sample_text (sample_message "s" one_preferred_tree) []
      one_preferred_tree rfl (by decide) (by decide)⟩

/-- Every rendered position puts its text into the reference text. -/
theorem reference_contains (t : Chunk → Bool → ustring) (html fb : Bool) (c : Chunk)
    (q : List Nat) (hq : q ∈ rendered_positions html fb c) :
    ∃ pre post, viewable_text_reference t html fb c = pre ++ text_at t html c q ++ post := by
  obtain ⟨l1, l2, hl⟩ := List.append_of_mem hq
  refine ⟨(l1.map (text_at t html c)).flatten, (l2.map (text_at t html c)).flatten, ?_⟩
  unfold viewable_text_reference
  rw [hl]
  simp

/-- C2, as the code has it: in every part tree, for every alternative group
that the traversal reaches (the children of the node `g` at an included
position `p`) and in which no member is preferred, when exactly one of `html`
and `fallback_html` is set the text returned by `viewable_text` contains the
text of every viewable member, and the member is a rendered position. -/
theorem viewable_text_no_preferred (chunk_text : Chunk → Bool → ustring) (m : Message)
    (html fallback_html : Bool) (hsome : (html || fallback_html) = true)
    (hflags : ¬ (html = true ∧ fallback_html = true))
    (p : List Nat) (g : Chunk) (hg : m.root.node_at p = some g)
    (hreached : included m.root p = true) (hgroup : alt_group g.kids)
    (hnone : ∀ k ∈ g.kids, k.preferred = false)
    (i : Nat) (member : Chunk) (hm : g.kids[i]? = some member)
    (hview : member.viewable = true) :
    (p ++ [i]) ∈ rendered_positions html fallback_html m.root ∧
      ∃ pre post, m.viewable_text chunk_text html fallback_html =
        .ok (pre ++ chunk_text member html ++ post) := by
  have hnode := node_at_snoc m.root g member p i hg hm
  have hrule := member_included g.kids hgroup hnone i member hm
  have hpos : (p ++ [i]) ∈ rendered_positions html fallback_html m.root := by
    unfold rendered_positions
    rw [List.mem_filter, mem_positions, hnode]
    refine ⟨rfl, ?_⟩
    unfold rendered
    rw [included_snoc m.root g member p i hg hm, hreached, hrule, hnode]
    simp only [text_rule, hview, Bool.and_self, Bool.true_and]
    rw [Bool.or_assoc, hsome, Bool.or_true]
  refine ⟨hpos, ?_⟩
  have h : (html && fallback_html) = false := by
    cases html <;> cases fallback_html <;> simp_all
  obtain ⟨pre, post, hpp⟩ := reference_contains chunk_text html fallback_html m.root _ hpos
  refine ⟨pre, post, ?_⟩
  rw [viewable_text_ok chunk_text m html fallback_html h, hpp]
  simp [text_at, hnode]

/-- Witness for the code's version of C2: the plain member of
`no_preferred_tree`, rendered with `fallback_html`. -/
theorem viewable_text_no_preferred_witness :
    ((false || true) = true ∧ ¬ (false = true ∧ true = true) ∧
        (sample_message "s" no_preferred_tree).root.node_at [] = some no_preferred_tree ∧
        included (sample_message "s" no_preferred_tree).root [] = true ∧
        alt_group no_preferred_tree.kids ∧
        (∀ k ∈ no_preferred_tree.kids, k.preferred = false) ∧
        no_preferred_tree.kids[0]? = some (no_preferred_tree.kids.get ⟨0, by decide⟩) ∧
        (no_preferred_tree.kids.get ⟨0, by decide⟩).viewable = true) ∧
      (([] ++ [0]) ∈ rendered_positions false true (sample_message "s" no_preferred_tree).root ∧
        ∃ pre post, (sample_message "s" no_preferred_tree).viewable_text sample_text false true =
          .ok (pre ++ sample_text (no_preferred_tree.kids.get ⟨0, by decide⟩) false ++ post)) :=
  ⟨⟨rfl, by decide, rfl, by decide, by decide, by decide, rfl, rfl⟩,
    viewable_text_no_preferred sample_text (sample_message "s" no_preferred_tree) false true rfl
      (by decide) [] no_preferred_tree rfl (by decide) (by decide) (by decide) 0 _ rfl rfl⟩

/-- C2 fails as stated: `no_preferred_tree` is an alternative group of two
viewable members, neither preferred, reached from the root; with both flags
false `viewable_text` returns the empty text, which contains the text of
neither member. -/
theorem viewable_text_no_preferred_flags_false :
    alt_group no_preferred_tree.kids ∧
      (∀ k ∈ no_preferred_tree.kids, k.preferred = false ∧ k.viewable = true) ∧
      included no_preferred_tree [] = true ∧
      (sample_message "s" no_preferred_tree).viewable_text sample_text false false = .ok [] ∧
      ¬ ∃ member ∈ no_preferred_tree.kids, ∃ pre post,
        (sample_message "s" no_preferred_tree).viewable_text sample_text false false =
          .ok (pre ++ sample_text member false ++ post) := by
  refine ⟨by decide, by decide, by decide, rfl, ?_⟩
  rintro ⟨member, hmem, pre, post, h⟩
  have h2 : (sample_message "s" no_preferred_tree).viewable_text sample_text false false =
      .ok [] := rfl
  rw [h2] at h
  injection h with h
  have hlen := congrArg List.length h
  simp only [List.length_nil, List.length_append] at hlen
  have : 0 < (sample_text member false).length := by
    simp only [no_preferred_tree, List.mem_cons, List.mem_singleton, List.not_mem_nil,
      or_false] at hmem
    rcases hmem with rfl | rfl <;> decide
  omega

/-! ## Lemmas on the flattening queries -/

mutual
theorem app_attachment_eq_collect : ∀ (c : Chunk) (acc : List Chunk),
    app_attachment c acc = collect (fun n => n.attachment) c acc
  | .mk id v a pr mm fn ct sib kids, acc => by
    simp only [app_attachment, collect]
    exact app_attachment_kids_eq_collect kids _
theorem app_attachment_kids_eq_collect : ∀ (ks : List Chunk) (acc : List Chunk),
    app_attachment_kids ks acc = collect_kids (fun n => n.attachment) ks acc
  | [], acc => by simp [app_attachment_kids, collect_kids]
  | k :: ks, acc => by
    simp only [app_attachment_kids, collect_kids]
    rw [app_attachment_eq_collect k acc, app_attachment_kids_eq_collect ks]
end

mutual
theorem app_mm_eq_collect : ∀ (c : Chunk) (acc : List Chunk),
    app_mm c acc = collect (fun n => n.mime_message) c acc
  | .mk id v a pr mm fn ct sib kids, acc => by
    simp only [app_mm, collect]
    exact app_mm_kids_eq_collect kids _
theorem app_mm_kids_eq_collect : ∀ (ks : List Chunk) (acc : List Chunk),
    app_mm_kids ks acc = collect_kids (fun n => n.mime_message) ks acc
  | [], acc => by simp [app_mm_kids, collect_kids]
  | k :: ks, acc => by
    simp only [app_mm_kids, collect_kids]
    rw [app_mm_eq_collect k acc, app_mm_kids_eq_collect ks]
end

mutual
theorem collect_append (flag : Chunk → Bool) : ∀ (c : Chunk) (acc : List Chunk),
    collect flag c acc = acc ++ collect flag c []
  | .mk id v a pr mm fn ct sib kids, acc => by
    simp only [collect]
    split
    · rw [collect_kids_append flag kids, collect_kids_append flag kids ([] ++ _)]
      simp
    · exact collect_kids_append flag kids acc
theorem collect_kids_append (flag : Chunk → Bool) : ∀ (ks : List Chunk) (acc : List Chunk),
    collect_kids flag ks acc = acc ++ collect_kids flag ks []
  | [], acc => by simp [collect_kids]
  | k :: ks, acc => by
    simp only [collect_kids]
    rw [collect_kids_append flag ks, collect_append flag k acc,
      collect_kids_append flag ks (collect flag k [])]
    simp
end

theorem flag_at_cons (flag : Chunk → Bool) (c k : Chunk) (i : Nat) (p : List Nat)
    (hk : c.kids[i]? = some k) : flag_at flag c (i :: p) = flag_at flag k p := by
  simp [flag_at, node_at_cons, hk]

theorem nodes_with_kids (flag : Chunk → Bool) (c : Chunk) :
    ∀ (ks : List Chunk) (i : Nat), (∀ j, ks[j]? = c.kids[i + j]?) →
      ((positions_kids i ks).filter (flag_at flag c)).filterMap c.node_at =
        (ks.map (nodes_with flag)).flatten
  | [], _, _ => by simp [positions_kids]
  | k :: ks, i, h => by
    have hk : c.kids[i]? = some k := by simpa using (h 0).symm
    have htail : ∀ j, ks[j]? = c.kids[(i + 1) + j]? := by
      intro j
      have := h (j + 1)
      simpa [Nat.add_assoc, Nat.add_comm 1 j] using this
    have ih := nodes_with_kids flag c ks (i + 1) htail
    rw [positions_kids, List.filter_append, List.filterMap_append, ih, List.filter_map,
      List.filterMap_map]
    have h1 : (flag_at flag c ∘ fun p => i :: p) = flag_at flag k := by
      funext p; exact flag_at_cons flag c k i p hk
    have h2 : (c.node_at ∘ fun p => i :: p) = k.node_at := by
      funext p; simp [node_at_cons, hk]
    rw [h1, h2]
    simp [nodes_with]

theorem nodes_with_unfold (flag : Chunk → Bool) (c : Chunk) :
    nodes_with flag c =
      (if flag c then [c] else []) ++ (c.kids.map (nodes_with flag)).flatten := by
  have hk := nodes_with_kids flag c c.kids 0 (by intro j; simp)
  cases c with
  | mk id v a p mm fn ct sib kids =>
    simp only [nodes_with, positions] at hk ⊢
    rw [List.filter_cons]
    cases hf : flag (Chunk.mk id v a p mm fn ct sib kids)
    · simpa [flag_at, Chunk.node_at, hf] using hk
    · simpa [flag_at, Chunk.node_at, hf] using hk

mutual
theorem collect_eq_nodes_with (flag : Chunk → Bool) :
    ∀ c : Chunk, collect flag c [] = nodes_with flag c
  | .mk id v a pr mm fn ct sib kids => by
    rw [nodes_with_unfold]
    simp only [collect]
    rw [collect_kids_append, collect_kids_eq_nodes_with flag kids]
    split <;> simp
theorem collect_kids_eq_nodes_with (flag : Chunk → Bool) :
    ∀ ks : List Chunk, collect_kids flag ks [] = (ks.map (nodes_with flag)).flatten
  | [] => by simp [collect_kids]
  | k :: ks => by
    simp only [collect_kids]
    rw [collect_kids_append, collect_eq_nodes_with flag k, collect_kids_eq_nodes_with flag ks]
    simp
end

theorem length_filterMap_of_isSome {α β : Type} (f : α → Option β) :
    ∀ l : List α, (∀ x ∈ l, (f x).isSome = true) → (l.filterMap f).length = l.length
  | [], _ => rfl
  | x :: l, h => by
    have hx := h x (List.mem_cons_self _ _)
    obtain ⟨y, hy⟩ := Option.isSome_iff_exists.1 hx
    rw [List.filterMap_cons_some hy, List.length_cons, List.length_cons,
      length_filterMap_of_isSome f l (fun z hz => h z (List.mem_cons_of_mem _ hz))]

theorem length_nodes_with (flag : Chunk → Bool) (c : Chunk) :
    (nodes_with flag c).length = (positions c).countP (flag_at flag c) := by
  rw [List.countP_eq_length_filter]
  unfold nodes_with
  apply length_filterMap_of_isSome
  intro p hp
  exact (mem_positions c p).1 (List.mem_filter.1 hp).1

mutual
theorem collect_erase_render (flag : Chunk → Bool)
    (hflag : ∀ n, flag (erase_render n) = flag n) : ∀ (c : Chunk) (acc : List Chunk),
    (collect flag c acc).map erase_render =
      collect flag (erase_render c) (acc.map erase_render)
  | .mk id v a pr mm fn ct sib kids, acc => by
    have hf := hflag (Chunk.mk id v a pr mm fn ct sib kids)
    simp only [erase_render] at hf
    simp only [collect, erase_render]
    rw [collect_kids_erase_render flag hflag kids, hf]
    split <;> simp [erase_render]
theorem collect_kids_erase_render (flag : Chunk → Bool)
    (hflag : ∀ n, flag (erase_render n) = flag n) : ∀ (ks : List Chunk) (acc : List Chunk),
    (collect_kids flag ks acc).map erase_render =
      collect_kids flag (erase_render_kids ks) (acc.map erase_render)
  | [], acc => by simp [collect_kids, erase_render_kids]
  | k :: ks, acc => by
    simp only [collect_kids, erase_render_kids]
    rw [collect_kids_erase_render flag hflag ks, collect_erase_render flag hflag k]
end

theorem attachment_erase_render (n : Chunk) :
    (erase_render n).attachment = n.attachment := by
  cases n; rfl

theorem mime_message_erase_render (n : Chunk) :
    (erase_render n).mime_message = n.mime_message := by
  cases n; rfl

/-! ## Properties of the flattening queries -/

/-- C4: for every part tree, `attachments ()` returns exactly the nodes whose
`attachment` flag is set and `mime_messages ()` exactly those whose
`mime_message` flag is set, each taken at its position, in pre-order; the
positions enumerate every node of the tree, root included, once; the lengths
equal the numbers of positions carrying the flag; and blanking `siblings`,
`preferred` and `viewable` throughout the tree changes neither result beyond
blanking these fields in the returned nodes. -/
theorem attachments_mime_messages_exhaustive (m : Message) :
    (m.attachments = nodes_with (fun n => n.attachment) m.root ∧
        m.mime_messages = nodes_with (fun n => n.mime_message) m.root) ∧
      ((positions m.root).Nodup ∧
        ∀ p, p ∈ positions m.root ↔ (m.root.node_at p).isSome = true) ∧
      (m.attachments.length =
          (positions m.root).countP (flag_at (fun n => n.attachment) m.root) ∧
        m.mime_messages.length =
          (positions m.root).countP (flag_at (fun n => n.mime_message) m.root)) ∧
      (m.attachments.map erase_render =
          Message.attachments { m with root := erase_render m.root } ∧
        m.mime_messages.map erase_render =
          Message.mime_messages { m with root := erase_render m.root }) := by
  have ha : m.attachments = nodes_with (fun n => n.attachment) m.root := by
    unfold Message.attachments
    rw [app_attachment_eq_collect, collect_eq_nodes_with]
  have hm : m.mime_messages = nodes_with (fun n => n.mime_message) m.root := by
    unfold Message.mime_messages
    rw [app_mm_eq_collect, collect_eq_nodes_with]
  refine ⟨⟨ha, hm⟩, ⟨positions_nodup m.root, mem_positions m.root⟩, ⟨?_, ?_⟩, ⟨?_, ?_⟩⟩
  · rw [ha, length_nodes_with]
  · rw [hm, length_nodes_with]
  · unfold Message.attachments
    rw [app_attachment_eq_collect, app_attachment_eq_collect,
      collect_erase_render _ attachment_erase_render]
    rfl
  · unfold Message.mime_messages
    rw [app_mm_eq_collect, app_mm_eq_collect,
      collect_erase_render _ mime_message_erase_render]
    rfl

/-! ## The thread walk -/

theorem from_notmuch_ok (open_file : ustring → Option GMimeMessage) (message : NmMessage)
    (lvl : Int) (h : (open_file message.filename).isSome = true) :
    ∃ m, Message.from_notmuch open_file message lvl = .ok m ∧ m.level = lvl := by
  obtain ⟨g, hg⟩ := Option.isSome_iff_exists.1 h
  unfold Message.from_notmuch
  simp only [hg]
  exact ⟨_, rfl, rfl⟩

/-- The messages built for the entries of a flattening, failures left out. -/
theorem built_of_open (open_file : ustring → Option GMimeMessage) :
    ∀ l : List (NmMessage × Nat), (∀ e ∈ l, (open_file e.1.filename).isSome = true) →
      (l.filterMap fun e => (Message.from_notmuch open_file e.1 (e.2 : Int)).toOption).map
          Except.ok =
        l.map (fun e => Message.from_notmuch open_file e.1 (e.2 : Int)) ∧
      (l.filterMap fun e => (Message.from_notmuch open_file e.1 (e.2 : Int)).toOption).map
          Message.level =
        l.map (fun e => (e.2 : Int))
  | [], _ => by simp
  | e :: l, h => by
    obtain ⟨m, hm, hl⟩ := from_notmuch_ok open_file e.1 (e.2 : Int)
      (h e (List.mem_cons_self _ _))
    obtain ⟨ih1, ih2⟩ := built_of_open open_file l (fun x hx => h x (List.mem_cons_of_mem _ hx))
    have hopt : (Message.from_notmuch open_file e.1 (e.2 : Int)).toOption = some m := by
      rw [hm]; rfl
    rw [List.filterMap_cons]
    simp only [hopt]
    rw [List.map_cons, List.map_cons, List.map_cons, List.map_cons, ih1, ih2, hm, hl]
    exact ⟨rfl, rfl⟩

mutual
theorem add_replies_eq (open_file : ustring → Option GMimeMessage) :
    ∀ (root : NmMessage) (d : Nat) (messages : List Message),
      (∀ e ∈ forest_preorder (d + 1) root.replies, (open_file e.1.filename).isSome = true) →
      add_replies open_file root ((d : Int) + 1) messages =
        (.ok (), messages ++ (forest_preorder (d + 1) root.replies).filterMap
          fun e => (Message.from_notmuch open_file e.1 (e.2 : Int)).toOption)
  | .mk mid fname tags replies, d, messages, h => by
    rw [add_replies]
    exact add_replies_loop_eq open_file replies (d + 1) messages h
theorem add_replies_loop_eq (open_file : ustring → Option GMimeMessage) :
    ∀ (replies : List NmMessage) (d : Nat) (messages : List Message),
      (∀ e ∈ forest_preorder d replies, (open_file e.1.filename).isSome = true) →
      add_replies_loop open_file replies (d : Int) messages =
        (.ok (), messages ++ (forest_preorder d replies).filterMap
          fun e => (Message.from_notmuch open_file e.1 (e.2 : Int)).toOption)
  | [], d, messages, _ => by simp [add_replies_loop, forest_preorder]
  | .mk mid fname tags rs :: replies, d, messages, h => by
    simp only [forest_preorder, thread_preorder, List.cons_append, List.mem_cons,
      List.mem_append] at h
    obtain ⟨m, hm, _⟩ := from_notmuch_ok open_file (.mk mid fname tags rs) (d : Int)
      (h _ (Or.inl rfl))
    have hopt : (Message.from_notmuch open_file (.mk mid fname tags rs) (d : Int)).toOption =
        some m := by rw [hm]; rfl
    have h1 := add_replies_eq open_file (.mk mid fname tags rs) d (messages ++ [m])
      (fun e he => h e (Or.inr (Or.inl he)))
    have h2 := add_replies_loop_eq open_file replies d
      (messages ++ [m] ++ (forest_preorder (d + 1) rs).filterMap
        fun e => (Message.from_notmuch open_file e.1 (e.2 : Int)).toOption)
      (fun e he => h e (Or.inr (Or.inr he)))
    simp only [add_replies_loop, forest_preorder, thread_preorder, hm, h1, h2, List.cons_append]
    rw [List.filterMap_cons, List.filterMap_append]
    simp only [hopt]
    simp
end

theorem toplevel_loop_eq (open_file : ustring → Option GMimeMessage) :
    ∀ (qmessages : List NmMessage) (d : Nat) (messages : List Message),
      (∀ e ∈ forest_preorder d qmessages, (open_file e.1.filename).isSome = true) →
      toplevel_loop open_file qmessages (d : Int) messages =
        (.ok (), messages ++ (forest_preorder d qmessages).filterMap
          fun e => (Message.from_notmuch open_file e.1 (e.2 : Int)).toOption)
  | [], d, messages, _ => by simp [toplevel_loop, forest_preorder]
  | .mk mid fname tags rs :: qmessages, d, messages, h => by
    simp only [forest_preorder, thread_preorder, List.cons_append, List.mem_cons,
      List.mem_append] at h
    obtain ⟨m, hm, _⟩ := from_notmuch_ok open_file (.mk mid fname tags rs) (d : Int)
      (h _ (Or.inl rfl))
    have hopt : (Message.from_notmuch open_file (.mk mid fname tags rs) (d : Int)).toOption =
        some m := by rw [hm]; rfl
    have h1 := add_replies_eq open_file (.mk mid fname tags rs) d (messages ++ [m])
      (fun e he => h e (Or.inr (Or.inl he)))
    have h2 := toplevel_loop_eq open_file qmessages d
      (messages ++ [m] ++ (forest_preorder (d + 1) rs).filterMap
        fun e => (Message.from_notmuch open_file e.1 (e.2 : Int)).toOption)
      (fun e he => h e (Or.inr (Or.inr he)))
    simp only [toplevel_loop, forest_preorder, thread_preorder, hm, h1, h2, List.cons_append]
    rw [List.filterMap_cons, List.filterMap_append]
    simp only [hopt]
    simp

/-- C3, as the code has it: for every thread handle in which the file of
every message can be opened, `load_messages` started on an empty message
sequence returns normally and yields the pre-order depth-first flattening of
the forest of top-level messages and replies, one `Message` per store record
(the one its constructor builds), and the `level` of each is the depth of its
record (top-level 0, a reply one more than its parent). On root A with replies
B, C and B with reply D the result is A(0), B(1), D(2), C(1). -/
theorem load_messages_preorder (open_file : ustring → Option GMimeMessage)
    (nm_thread : NmThread) (mt : MessageThread) (hempty : mt.messages = [])
    (hopen : all_files_open open_file nm_thread.toplevel) :
    (mt.load_messages open_file nm_thread).1 = .ok () ∧
      (mt.load_messages open_file nm_thread).2.messages.map Except.ok =
        (forest_preorder 0 nm_thread.toplevel).map
          (fun e => Message.from_notmuch open_file e.1 (e.2 : Int)) ∧
      (mt.load_messages open_file nm_thread).2.messages.map Message.level =
        (forest_preorder 0 nm_thread.toplevel).map (fun e => (e.2 : Int)) ∧
      (sample_message_thread.load_messages sample_open sample_thread).2.messages.map
          (fun x => (x.mid, x.level)) =
        [("A".toList, 0), ("B".toList, 1), ("D".toList, 2), ("C".toList, 1)] := by
  have h := toplevel_loop_eq open_file nm_thread.toplevel 0 mt.messages hopen
  rw [hempty, List.nil_append, Nat.cast_zero] at h
  obtain ⟨h1, h2⟩ := built_of_open open_file (forest_preorder 0 nm_thread.toplevel) hopen
  have hres : mt.load_messages open_file nm_thread =
      (.ok (), { mt with
        subject := mt.thread.subject
        messages := (forest_preorder 0 nm_thread.toplevel).filterMap
          fun e => (Message.from_notmuch open_file e.1 (e.2 : Int)).toOption }) := by
    unfold MessageThread.load_messages
    simp only [hempty, h]
  rw [hres]
  exact ⟨rfl, h1, h2, by decide⟩

/-- Witness for the code's version of C3: the sample reply graph, all files
present, loaded into an empty thread. -/
theorem load_messages_preorder_witness :
    (sample_message_thread.messages = [] ∧
        all_files_open sample_open sample_thread.toplevel) ∧
      ((sample_message_thread.load_messages sample_open sample_thread).1 = .ok () ∧
        (sample_message_thread.load_messages sample_open sample_thread).2.messages.map
            Except.ok =
          (forest_preorder 0 sample_thread.toplevel).map
            (fun e => Message.from_notmuch sample_open e.1 (e.2 : Int)) ∧
        (sample_message_thread.load_messages sample_open sample_thread).2.messages.map
            Message.level =
          (forest_preorder 0 sample_thread.toplevel).map (fun e => (e.2 : Int)) ∧
        (sample_message_thread.load_messages sample_open sample_thread).2.messages.map
            (fun x => (x.mid, x.level)) =
          [("A".toList, 0), ("B".toList, 1), ("D".toList, 2), ("C".toList, 1)]) :=
  ⟨⟨rfl, fun _ _ => rfl⟩,
    load_messages_preorder sample_open sample_thread sample_message_thread rfl
      (fun _ _ => rfl)⟩

/-- C3 fails as stated: the sample reply graph is a finite forest of four
messages and the thread starts empty, but with the file of B missing
`load_messages` throws the `message_error` of line 123 and leaves only A(0) in
the message sequence, not the flattening A(0), B(1), D(2), C(1). -/
theorem load_messages_file_missing :
    sample_message_thread.messages = [] ∧
      (forest_preorder 0 sample_thread.toplevel).map (fun e => (e.1.message_id, (e.2 : Int))) =
        [("A".toList, 0), ("B".toList, 1), ("D".toList, 2), ("C".toList, 1)] ∧
      (sample_message_thread.load_messages sample_open_without_B sample_thread).1 =
        .error (.message_error "failed to open file: B") ∧
      (sample_message_thread.load_messages sample_open_without_B sample_thread).2.messages.map
          (fun x => (x.mid, x.level)) = [("A".toList, 0)] ∧
      (sample_message_thread.load_messages sample_open_without_B sample_thread).2.messages.map
          (fun x => (x.mid, x.level)) ≠
        (forest_preorder 0 sample_thread.toplevel).map
          (fun e => (e.1.message_id, (e.2 : Int))) := by
  refine ⟨rfl, by decide, by rfl, by decide, by decide⟩

/-- C8: for every thread and every node whose `mime_message` flag is false,
`add_message` throws the `runtime_error` of line 518 and leaves the thread,
in particular its message sequence and its subject, as it was. -/
theorem add_message_rejects_non_message (get_mime_message : Chunk → Message)
    (mt : MessageThread) (c : Chunk) (hc : c.mime_message = false) :
    mt.add_message get_mime_message c =
        (.error (.runtime_error "mt: can only add message chunks that are GMimeMessages"),
          mt) ∧
      (mt.add_message get_mime_message c).2.messages = mt.messages ∧
      (mt.add_message get_mime_message c).2.subject = mt.subject := by
  have h : mt.add_message get_mime_message c =
      (.error (.runtime_error "mt: can only add message chunks that are GMimeMessages"),
        mt) := by
    unfold MessageThread.add_message
    rw [hc]
    rfl
  rw [h]
  exact ⟨rfl, rfl, rfl⟩

/-- Witness for C8: the root of `no_preferred_tree` is not a message part. -/
theorem add_message_rejects_non_message_witness :
    no_preferred_tree.mime_message = false ∧
      (sample_message_thread.add_message (sample_message "inner") no_preferred_tree =
          (.error (.runtime_error "mt: can only add message chunks that are GMimeMessages"),
            sample_message_thread) ∧
        (sample_message_thread.add_message (sample_message "inner")
            no_preferred_tree).2.messages = sample_message_thread.messages ∧
        (sample_message_thread.add_message (sample_message "inner")
            no_preferred_tree).2.subject = sample_message_thread.subject) :=
  ⟨rfl, add_message_rejects_non_message (sample_message "inner") sample_message_thread
    no_preferred_tree rfl⟩

/-! ## Subjects and file names -/

theorem substr_zero (s : ustring) (n : Nat) : substr s 0 n = s.take n := by
  simp [substr]

theorem erase_zero (s : ustring) (n : Nat) : erase s 0 n = s.drop n := by
  simp [erase]

/-- C6, as the code has it: when the root part carries no suggested file
name, for every subject and every suffix the result is
`sanitize (stem ++ sfx ++ ext)`, where `ext` is `.patch` for a patch and `.eml`
otherwise, `sfx` is `-` followed by the suffix when the suffix is not empty,
and `stem` is the sanitized subject, for a patch without its first five
characters when these, upper-cased, are `PATCH`. -/
theorem get_filename_from_subject (safe_fname : ustring → ustring) (nl : Char → Bool)
    (m : Message) (appendix : ustring) (hroot : m.root.get_filename = []) :
    m.get_filename safe_fname nl appendix =
      safe_fname
        ((if m.is_patch nl then
            (if uppercase ((safe_fname m.subject).take 5) = "PATCH".toList then
              (safe_fname m.subject).drop 5
            else safe_fname m.subject)
          else safe_fname m.subject) ++
          (if appendix = [] then [] else "-".toList ++ appendix) ++
          (if m.is_patch nl then ".patch".toList else ".eml".toList)) := by
  unfold Message.get_filename
  simp only [hroot, List.length_nil, if_true, substr_zero, erase_zero, ne_eq,
    List.length_eq_zero]
  cases m.is_patch nl <;> by_cases ha : appendix = [] <;> simp [ha]

/-- Witness for the code's version of C6: subject `Patch [PATCH]`, suffix
`ab12x`, no file name on the root part. -/
theorem get_filename_from_subject_witness :
    (sample_message "Patch [PATCH]" unnamed_part).root.get_filename = [] ∧
      (sample_message "Patch [PATCH]" unnamed_part).get_filename sample_safe_fname
          glib_newline "ab12x".toList =
        sample_safe_fname
          ((if (sample_message "Patch [PATCH]" unnamed_part).is_patch glib_newline then
              (if uppercase
                    ((sample_safe_fname
                      (sample_message "Patch [PATCH]" unnamed_part).subject).take 5) =
                  "PATCH".toList then
                (sample_safe_fname (sample_message "Patch [PATCH]" unnamed_part).subject).drop 5
              else sample_safe_fname (sample_message "Patch [PATCH]" unnamed_part).subject)
            else sample_safe_fname (sample_message "Patch [PATCH]" unnamed_part).subject) ++
            (if "ab12x".toList = [] then [] else "-".toList ++ "ab12x".toList) ++
            (if (sample_message "Patch [PATCH]" unnamed_part).is_patch glib_newline then
              ".patch".toList
            else ".eml".toList)) :=
  ⟨rfl, get_filename_from_subject sample_safe_fname glib_newline
    (sample_message "Patch [PATCH]" unnamed_part) "ab12x".toList rfl⟩

/-- C6 fails as stated: for the subject `Patch [PATCH]` (a patch, no file
name on the root part, no suffix) the sanitized subject is `Patch__PATCH_`,
which does not start with the token `PATCH`; the stated name keeps it whole,
`Patch__PATCH_.patch`, while `get_filename` returns `__PATCH_.patch`. -/
theorem get_filename_strips_lower_case_patch :
    (sample_message "Patch [PATCH]" unnamed_part).root.get_filename = [] ∧
      (sample_message "Patch [PATCH]" unnamed_part).is_patch glib_newline = true ∧
      sample_safe_fname (sample_message "Patch [PATCH]" unnamed_part).subject =
        "Patch__PATCH_".toList ∧
      filename_from_subject (without_leading "PATCH".toList) sample_safe_fname glib_newline
          (sample_message "Patch [PATCH]" unnamed_part) [] = "Patch__PATCH_.patch".toList ∧
      (sample_message "Patch [PATCH]" unnamed_part).get_filename sample_safe_fname
          glib_newline [] = "__PATCH_.patch".toList ∧
      (sample_message "Patch [PATCH]" unnamed_part).get_filename sample_safe_fname
          glib_newline [] ≠
        filename_from_subject (without_leading "PATCH".toList) sample_safe_fname glib_newline
          (sample_message "Patch [PATCH]" unnamed_part) [] := by
  decide

/-- C10: when the root part carries a suggested file name `f`, `get_filename`
returns `sanitize f` for every suffix, every subject and hence every value of
`is_patch ()`; every name that the collision loop of `save_to` generates is the
first candidate again. -/
theorem get_filename_ignores_suffix (safe_fname : ustring → ustring) (nl : Char → Bool)
    (m : Message) (s1 s2 subject : ustring) (random : Nat → ustring) (n : Nat)
    (hroot : m.root.get_filename ≠ []) :
    m.get_filename safe_fname nl s1 = safe_fname m.root.get_filename ∧
      m.get_filename safe_fname nl s2 = safe_fname m.root.get_filename ∧
      Message.get_filename safe_fname nl { m with subject := subject } s1 =
        safe_fname m.root.get_filename ∧
      save_to_candidate safe_fname nl m random n = save_to_candidate safe_fname nl m random 0 := by
  have h : ∀ (m2 : Message) (s : ustring), m2.root = m.root →
      m2.get_filename safe_fname nl s = safe_fname m.root.get_filename := by
    intro m2 s hm2
    unfold Message.get_filename
    have hlen : ¬ m.root.get_filename.length = 0 := by
      rwa [List.length_eq_zero]
    simp only [hm2, hlen, if_false]
  refine ⟨h m s1 rfl, h m s2 rfl, h _ s1 rfl, ?_⟩
  cases n with
  | zero => rfl
  | succ n =>
    show m.get_filename safe_fname nl (random n) = m.get_filename safe_fname nl []
    rw [h m _ rfl, h m _ rfl]

/-- Witness for C10: a message whose root part is named `notes.txt`. -/
theorem get_filename_ignores_suffix_witness :
    (sample_message "[PATCH] fix bug" named_part).root.get_filename ≠ [] ∧
      ((sample_message "[PATCH] fix bug" named_part).get_filename sample_safe_fname
            glib_newline [] =
          sample_safe_fname (sample_message "[PATCH] fix bug" named_part).root.get_filename ∧
        (sample_message "[PATCH] fix bug" named_part).get_filename sample_safe_fname
            glib_newline "ab12x".toList =
          sample_safe_fname (sample_message "[PATCH] fix bug" named_part).root.get_filename ∧
        Message.get_filename sample_safe_fname glib_newline
            { sample_message "[PATCH] fix bug" named_part with subject := "fix bug".toList } [] =
          sample_safe_fname (sample_message "[PATCH] fix bug" named_part).root.get_filename ∧
        save_to_candidate sample_safe_fname glib_newline
            (sample_message "[PATCH] fix bug" named_part) (fun _ => "ab12x".toList) 3 =
          save_to_candidate sample_safe_fname glib_newline
            (sample_message "[PATCH] fix bug" named_part) (fun _ => "ab12x".toList) 0) :=
  ⟨by decide,
    get_filename_ignores_suffix sample_safe_fname glib_newline
      (sample_message "[PATCH] fix bug" named_part) [] "ab12x".toList "fix bug".toList
      (fun _ => "ab12x".toList) 3 (by decide)⟩

end Astroid
